import Mathlib

/-!
Verification development for the bt-company-extractor pipeline.

The JavaScript source (src/unnamed/part_000, the v3.4.0 server, together with
the two older revisions in src/server.js) is shallowly embedded here:
strings become `String`/`List Char`, the regex patterns become an explicit
backtracking matcher over an AST transcribed from the pattern literals, and
the I/O boundaries (pdf-parse results, OCR network responses) become explicit
environment values fed to the embedded control flow.  JavaScript `Math.round`
on the readable ratio is embedded as exact rational rounding
(`floor (x + 1/2)` written with natural division); this agrees with the IEEE
computation except at knife-edge ratios and is irrelevant to the bound claims.
-/

set_option maxRecDepth 20000

namespace BTC

/-! ## Character classes (transcribed from the source's regex character sets) -/

/-- ASCII uppercase letter, the class `[A-Z]`. -/
def isUpperAlpha (c : Char) : Bool := 'A' ≤ c && c ≤ 'Z'

/-- ASCII lowercase letter, the class `[a-z]`. -/
def isLowerAlpha (c : Char) : Bool := 'a' ≤ c && c ≤ 'z'

/-- ASCII letter, the class `[A-Za-z]`. -/
def isAlpha (c : Char) : Bool := isUpperAlpha c || isLowerAlpha c

/-- ASCII digit, the class `[0-9]`. -/
def isDigitChar (c : Char) : Bool := '0' ≤ c && c ≤ '9'

/-- JavaScript word character, the class `\w` = `[A-Za-z0-9_]`. -/
def isWordChar (c : Char) : Bool := isAlpha c || isDigitChar c || c = '_'

/-- JavaScript whitespace, the class `\s` (ASCII whitespace plus the Unicode
space separators JavaScript includes). -/
def isSpaceChar (c : Char) : Bool :=
  c = ' ' || c = Char.ofNat 9 || c = Char.ofNat 10 || c = Char.ofNat 11 ||
  c = Char.ofNat 12 || c = Char.ofNat 13 || c = Char.ofNat 0xa0 ||
  c = Char.ofNat 0x1680 || (Char.ofNat 0x2000 ≤ c && c ≤ Char.ofNat 0x200a) ||
  c = Char.ofNat 0x2028 || c = Char.ofNat 0x2029 || c = Char.ofNat 0x202f ||
  c = Char.ofNat 0x205f || c = Char.ofNat 0x3000 || c = Char.ofNat 0xfeff

/-- Vowel, the class `[aeiouAEIOU]` from `analyzeTextQuality`. -/
def isVowel (c : Char) : Bool :=
  c = 'a' || c = 'e' || c = 'i' || c = 'o' || c = 'u' ||
  c = 'A' || c = 'E' || c = 'I' || c = 'O' || c = 'U'

/-- Consonant letter, the class `[bcdfghjklmnpqrstvwxyzBCDFGHJKLMNPQRSTVWXYZ]`
(exactly the ASCII letters that are not vowels). -/
def isConsonant (c : Char) : Bool := isAlpha c && !isVowel c

/-- Apostrophe character (appears in the name character classes). -/
def apos : Char := Char.ofNat 39

/-- Double-quote character (appears in the aggressive-cleanup class). -/
def dquote : Char := Char.ofNat 34

/-- Sentence/listing punctuation shared by the readable/garbled classes:
`[.,;:!?\-()&]`. -/
def isQualityPunct (c : Char) : Bool :=
  c = '.' || c = ',' || c = ';' || c = ':' || c = '!' || c = '?' ||
  c = '-' || c = '(' || c = ')' || c = '&'

/-- Readable character, the class `[a-zA-Z0-9\s\.,;:!?\-()&]` of
`analyzeTextQuality`. -/
def isReadableChar (c : Char) : Bool :=
  isAlpha c || isDigitChar c || isSpaceChar c || isQualityPunct c

/-- Garbled character, the class `[^\w\s\.,;:!?\-()&]` of
`analyzeTextQuality`. -/
def isGarbledChar (c : Char) : Bool :=
  !(isWordChar c || isSpaceChar c || isQualityPunct c)

/-! ## Generic list/string utilities used by the embedding -/

/-- Maximal runs of characters satisfying `p` (the way a global regex such as
`/[a-zA-Z]{2,}/g` carves a string into letter runs).  Structural recursion on
a fuel argument instantiated with the list length, which always suffices
because every step consumes at least one character. -/
def runsOfF (p : Char → Bool) : Nat → List Char → List (List Char)
  | 0, _ => []
  | _, [] => []
  | fuel + 1, c :: cs =>
    if p c then (c :: cs.takeWhile p) :: runsOfF p fuel (cs.dropWhile p)
    else runsOfF p fuel cs

/-- Maximal runs of characters satisfying `p`. -/
def runsOf (p : Char → Bool) (l : List Char) : List (List Char) :=
  runsOfF p l.length l

/-- Lowercase every character (JavaScript `toLowerCase` restricted to the
ASCII behaviour the source relies on). -/
def lowerList (l : List Char) : List Char := l.map Char.toLower

/-- Does `l` start with the list `pat`? -/
def startsWithList : List Char → List Char → Bool
  | [], _ => true
  | _ :: _, [] => false
  | p :: ps, c :: cs => p == c && startsWithList ps cs

/-- First index (from `i`) at which `pat` occurs in the remaining text, in the
style of JavaScript `String.indexOf`. -/
def indexOfAux (pat : List Char) : List Char → Nat → Option Nat
  | [], i => if pat.isEmpty then some i else none
  | l@(_ :: cs), i => if startsWithList pat l then some i else indexOfAux pat cs (i + 1)

/-- Index of the first occurrence of `pat` in `l`, if any. -/
def indexOfList (pat l : List Char) : Option Nat := indexOfAux pat l 0

/-- Substring containment test. -/
def containsList (l pat : List Char) : Bool := (indexOfList pat l).isSome

/-- Case-insensitive substring containment, as in
`s.toLowerCase().includes(t.toLowerCase())` or a `/t/i.test(s)` on a literal. -/
def containsCI (l pat : List Char) : Bool :=
  containsList (lowerList l) (lowerList pat)

/-- Number of non-overlapping occurrences of a non-empty literal pattern,
scanning left to right (the behaviour of `s.match(new RegExp(lit, 'g'))` on an
escaped literal).  An empty pattern matches at every position, giving
`l.length + 1` matches, exactly as in JavaScript. -/
def countOccF (pat : List Char) : Nat → List Char → Nat
  | 0, _ => 0
  | _, [] => 0
  | fuel + 1, c :: cs =>
    if startsWithList pat (c :: cs) then
      1 + countOccF pat fuel ((c :: cs).drop pat.length)
    else countOccF pat fuel cs

/-- Occurrence count wrapper handling the empty-pattern case. -/
def countOcc (pat l : List Char) : Nat :=
  if pat.isEmpty then l.length + 1 else countOccF pat l.length l

/-- JavaScript `String.trim`: strip whitespace from both ends. -/
def jsTrim (l : List Char) : List Char :=
  ((l.dropWhile isSpaceChar).reverse.dropWhile isSpaceChar).reverse

/-- Fuelled worker for whitespace collapsing. -/
def collapseWsF : Nat → List Char → List Char
  | 0, _ => []
  | _, [] => []
  | fuel + 1, c :: cs =>
    if isSpaceChar c then ' ' :: collapseWsF fuel (cs.dropWhile isSpaceChar)
    else c :: collapseWsF fuel cs

/-- The global replacement `replace(/\s+/g, ' ')`: collapse every maximal
whitespace run to a single space. -/
def collapseWs (l : List Char) : List Char := collapseWsF l.length l

/-! ## Text Quality Analyzer (`analyzeTextQuality`, part_000 lines 91-129) -/

/-- The words of a text: all maximal runs of at least two ASCII letters,
the matches of `/[a-zA-Z]{2,}/g`. -/
def wordsOf (l : List Char) : List (List Char) :=
  (runsOf isAlpha l).filter (fun w => 2 ≤ w.length)

/-- Number of vowels in a word. -/
def vowelCount (w : List Char) : Nat := w.countP isVowel

/-- Does the word contain a run of at least five consecutive consonant
letters (the test `/[bcdfghjklmnpqrstvwxyz...]{5,}/`)? -/
def consRunAux : List Char → Nat → Bool
  | [], _ => false
  | c :: cs, k =>
    if isConsonant c then
      if 5 ≤ k + 1 then true else consRunAux cs (k + 1)
    else consRunAux cs 0

/-- Whether a word has five or more consecutive consonants. -/
def hasConsonantRun5 (w : List Char) : Bool := consRunAux w 0

/-- The valid-word filter of `analyzeTextQuality`, transcribed branch by
branch from the source. -/
def isValidWord (w : List Char) : Bool :=
  if w.length < 2 then false
  else if 20 < w.length then false
  else
    let vowels := vowelCount w
    if vowels = 0 && 3 < w.length then false
    else if hasConsonantRun5 w then false
    else true

/-- Modelled from the spec and claim wording: a word is valid iff its length
is in [2,20], it has a vowel or length at most 3, and it has no run of five
or more consecutive consonants.  Used to compare against the source's filter. -/
def specValidWord (w : List Char) : Bool :=
  (2 ≤ w.length && w.length ≤ 20) &&
  (0 < vowelCount w || w.length ≤ 3) &&
  !hasConsonantRun5 w

/-- The quality report.  The JavaScript empty-text short-circuit returns only
the first three fields, so the two word statistics are optional. -/
structure TextQuality where
  readableRatio : Nat
  validWordCount : Nat
  garbledRatio : ℚ
  totalWords : Option Nat
  avgWordLength : Option ℚ
deriving Repr, DecidableEq

/-- The Text Quality Analyzer.  `readableRatio` embeds
`Math.round((readableChars / totalChars) * 100)` as exact rational rounding
`(200 * readableChars + totalChars) / (2 * totalChars)` in natural division. -/
def analyzeTextQuality (text : String) : TextQuality :=
  let chars := text.data
  if chars.length = 0 then
    { readableRatio := 0, validWordCount := 0, garbledRatio := 1,
      totalWords := none, avgWordLength := none }
  else
    let totalChars := chars.length
    let readableChars := chars.countP isReadableChar
    let garbledChars := chars.countP isGarbledChar
    let words := wordsOf chars
    let validWords := words.filter isValidWord
    { readableRatio := (200 * readableChars + totalChars) / (2 * totalChars),
      validWordCount := validWords.length,
      garbledRatio := (garbledChars : ℚ) / (totalChars : ℚ),
      totalWords := some words.length,
      avgWordLength :=
        some (if 0 < words.length then
                ((words.map List.length).sum : ℚ) / (words.length : ℚ)
              else 0) }

/-! ### Claims C4 and C5 -/

/-- Claim C4: for every input string (including the empty string), the Text
Quality Analyzer returns a report whose readableRatio lies in [0, 100] and
whose garbledRatio lies in [0, 1]. -/
theorem claim_C4_quality_bounds (s : String) :
    (analyzeTextQuality s).readableRatio ≤ 100 ∧
    0 ≤ (analyzeTextQuality s).garbledRatio ∧
    (analyzeTextQuality s).garbledRatio ≤ 1 := by
  have hr : s.data.countP isReadableChar ≤ s.data.length :=
    List.countP_le_length isReadableChar
  have hg : s.data.countP isGarbledChar ≤ s.data.length :=
    List.countP_le_length isGarbledChar
  by_cases h : s.data.length = 0
  · simp [analyzeTextQuality, h]
  · have hpos : 0 < s.data.length := Nat.pos_of_ne_zero h
    unfold analyzeTextQuality
    rw [if_neg h]
    refine ⟨?_, ?_, ?_⟩
    · show (200 * s.data.countP isReadableChar + s.data.length) /
        (2 * s.data.length) ≤ 100
      rw [Nat.div_le_iff_le_mul_add_pred (by omega)]
      omega
    · show (0 : ℚ) ≤ (s.data.countP isGarbledChar : ℚ) / (s.data.length : ℚ)
      positivity
    · show (s.data.countP isGarbledChar : ℚ) / (s.data.length : ℚ) ≤ 1
      rw [div_le_one (by exact_mod_cast hpos : (0 : ℚ) < (s.data.length : ℚ))]
      exact_mod_cast hg

/-- The source's valid-word filter agrees pointwise with the predicate stated
in the spec. -/
theorem isValidWord_eq_specValidWord (w : List Char) :
    isValidWord w = specValidWord w := by
  unfold isValidWord specValidWord
  rw [Bool.eq_iff_iff]
  cases h5 : hasConsonantRun5 w <;> simp [h5] <;> omega

/-- Claim C5: a word (a maximal run of at least 2 letters) is counted as valid
iff its length is in [2, 20], it has a vowel or length at most 3, and it
contains no run of 5 or more consecutive consonants; `validWordCount` is the
number of words satisfying exactly this predicate. -/
theorem claim_C5_valid_words (s : String) :
    (analyzeTextQuality s).validWordCount =
      ((wordsOf s.data).filter specValidWord).length ∧
    ∀ w : List Char, isValidWord w = specValidWord w := by
  constructor
  · by_cases h : s.data.length = 0
    · have hnil : s.data = [] := List.length_eq_zero.mp h
      simp [analyzeTextQuality, h, hnil, wordsOf, runsOf, runsOfF]
    · unfold analyzeTextQuality
      rw [if_neg h]
      show ((wordsOf s.data).filter isValidWord).length = _
      congr 1
      exact List.filter_congr (fun w _ => isValidWord_eq_specValidWord w)
  · exact isValidWord_eq_specValidWord

/-! ## Company candidates, normalization and deduplication
(`extractCompanyNamesEnhanced`, part_000 lines 950-978) -/

/-- A company-name candidate as built by the extractors. -/
structure Candidate where
  name : String
  confidence : Nat
  patternName : String
  originalMatch : String
  context : String
deriving Repr, DecidableEq

/-- Fuelled worker for the entity-token removal pass. -/
def removeEntityTokensF : Nat → List Char → List Char
  | 0, _ => []
  | _, [] => []
  | fuel + 1, c :: cs =>
    if startsWithList ("llc").data (c :: cs) then removeEntityTokensF fuel ((c :: cs).drop 3)
    else if startsWithList ("inc").data (c :: cs) then removeEntityTokensF fuel ((c :: cs).drop 3)
    else if startsWithList ("corp").data (c :: cs) then removeEntityTokensF fuel ((c :: cs).drop 4)
    else if startsWithList ("company").data (c :: cs) then removeEntityTokensF fuel ((c :: cs).drop 7)
    else if startsWithList ("ltd").data (c :: cs) then removeEntityTokensF fuel ((c :: cs).drop 3)
    else if startsWithList ("llp").data (c :: cs) then removeEntityTokensF fuel ((c :: cs).drop 3)
    else if startsWithList ("pllc").data (c :: cs) then removeEntityTokensF fuel ((c :: cs).drop 4)
    else c :: removeEntityTokensF fuel cs

/-- The global replacement `replace(/llc|inc|corp|company|ltd|llp|pllc/g, '')`:
scan left to right, at each position try the alternatives in the regex's
order, drop a match and continue after it. -/
def removeEntityTokens (l : List Char) : List Char := removeEntityTokensF l.length l

/-- Lowercase ASCII letter or digit (the complement of `[^a-z0-9]` on
already-lowercased text). -/
def isLowerAlnum (c : Char) : Bool := isLowerAlpha c || isDigitChar c

/-- The deduplication key:
`name.toLowerCase().replace(/[^a-z0-9]/g, '').replace(/llc|inc|corp|company|ltd|llp|pllc/g, '')`. -/
def normalizeKey (s : String) : String :=
  String.mk (removeEntityTokens ((lowerList s.data).filter isLowerAlnum))

/-- The deduplication key of a candidate. -/
def candKey (c : Candidate) : String := normalizeKey c.name

/-- Index of the first accumulator entry whose key equals `k` (the
`acc.find(...)` + `acc.indexOf(existing)` pair of the source's reduce). -/
def findKeyIdx (k : String) : List Candidate → Option Nat
  | [] => none
  | c :: cs =>
    if candKey c = k then some 0
    else (findKeyIdx k cs).map (· + 1)

/-- One step of the deduplicating `reduce`: push an unseen key, replace the
first entry of an equal key when the new candidate's confidence is strictly
higher, drop the new candidate otherwise. -/
def dedupStep (acc : List Candidate) (current : Candidate) : List Candidate :=
  match findKeyIdx (candKey current) acc with
  | none => acc ++ [current]
  | some idx =>
    match acc[idx]? with
    | none => acc
    | some existing =>
      if existing.confidence < current.confidence then acc.set idx current
      else acc

/-- The deduplication `reduce` over the whole candidate list. -/
def dedupCandidates (l : List Candidate) : List Candidate := l.foldl dedupStep []

/-- The sort comparator `(a, b) => b.confidence - a.confidence`: `a` may stay
before `b` exactly when `b.confidence ≤ a.confidence`. -/
def byConfidenceDesc (a b : Candidate) : Bool := b.confidence ≤ a.confidence

/-- Stable insertion into a descending-sorted list: walk past entries the
comparator keeps before `c` (equal confidences keep the earlier entry first,
matching JavaScript's stable sort). -/
def insertDesc (c : Candidate) : List Candidate → List Candidate
  | [] => [c]
  | d :: ds => if byConfidenceDesc d c then d :: insertDesc c ds else c :: d :: ds

/-- Stable sort descending by confidence (the unique stable sort for the
source's comparator, hence the result of JavaScript's `Array.sort`). -/
def sortByConfDesc (l : List Candidate) : List Candidate := l.foldr insertDesc []

/-- The final ranking step shared by both extractors:
`uniqueNames.sort((a, b) => b.confidence - a.confidence)` followed by
`.slice(0, 5)`. -/
def rankCandidates (l : List Candidate) : List Candidate :=
  (sortByConfDesc (dedupCandidates l)).take 5

/-! ### Facts about `findKeyIdx` -/

theorem findKeyIdx_eq_none_iff (k : String) (l : List Candidate) :
    findKeyIdx k l = none ↔ ∀ c ∈ l, candKey c ≠ k := by
  induction l with
  | nil => simp [findKeyIdx]
  | cons c cs ih =>
    by_cases h : candKey c = k
    · simp [findKeyIdx, h]
    · simp [findKeyIdx, h, Option.map_eq_none', ih]

theorem findKeyIdx_some_getElem (k : String) :
    ∀ (l : List Candidate) (i : Nat), findKeyIdx k l = some i →
      ∃ e, l[i]? = some e ∧ candKey e = k := by
  intro l
  induction l with
  | nil => intro i h; simp [findKeyIdx] at h
  | cons c cs ih =>
    intro i h
    by_cases hc : candKey c = k
    · rw [findKeyIdx, if_pos hc] at h
      cases h
      exact ⟨c, by simp, hc⟩
    · rw [findKeyIdx, if_neg hc] at h
      match hi : findKeyIdx k cs with
      | none => rw [hi] at h; simp at h
      | some j =>
        rw [hi] at h
        simp only [Option.map_some'] at h
        cases h
        obtain ⟨e, he, hk⟩ := ih j hi
        exact ⟨e, by simpa using he, hk⟩

/-! ### The deduplication invariant (claim C2) -/

/-- Invariant carried through the deduplicating fold: `acc` has pairwise
distinct keys, consists of already-processed candidates, covers every
processed key, and each entry's confidence dominates its key group. -/
structure DedupInv (processed acc : List Candidate) : Prop where
  nodupKeys : acc.Pairwise (fun a b => candKey a ≠ candKey b)
  memOrig : ∀ d ∈ acc, d ∈ processed
  covered : ∀ c ∈ processed, ∃ d ∈ acc, candKey d = candKey c
  maxConf : ∀ d ∈ acc, ∀ c ∈ processed, candKey c = candKey d →
    c.confidence ≤ d.confidence

/-- In a key-pairwise-distinct list, equal keys force equal elements. -/
theorem pairwiseKeys_unique {acc : List Candidate}
    (hp : acc.Pairwise (fun a b => candKey a ≠ candKey b))
    {d e : Candidate} (hd : d ∈ acc) (he : e ∈ acc)
    (hk : candKey d = candKey e) : d = e := by
  rw [List.mem_iff_getElem] at hd he
  obtain ⟨i, hi, rfl⟩ := hd
  obtain ⟨j, hj, rfl⟩ := he
  rcases Nat.lt_trichotomy i j with hij | rfl | hij
  · exact absurd hk (List.pairwise_iff_getElem.mp hp i j hi hj hij)
  · rfl
  · exact absurd hk.symm (List.pairwise_iff_getElem.mp hp j i hj hi hij)

/-- A surviving element at another position stays in the list after `set`. -/
theorem getElem_mem_set_of_ne {l : List Candidate} {j idx : Nat}
    (hj : j < l.length) (hne : j ≠ idx) (a : Candidate) :
    l[j] ∈ l.set idx a := by
  rw [List.mem_iff_getElem]
  refine ⟨j, by simpa using hj, ?_⟩
  exact List.getElem_set_ne (Ne.symm hne) (by simpa using hj)

theorem dedupStep_inv {processed acc : List Candidate} (cur : Candidate)
    (h : DedupInv processed acc) :
    DedupInv (processed ++ [cur]) (dedupStep acc cur) := by
  cases hfind : findKeyIdx (candKey cur) acc with
  | none =>
    have hnone : ∀ e ∈ acc, candKey e ≠ candKey cur :=
      (findKeyIdx_eq_none_iff _ _).mp hfind
    have hstep : dedupStep acc cur = acc ++ [cur] := by
      unfold dedupStep
      rw [hfind]
    rw [hstep]
    refine ⟨?_, ?_, ?_, ?_⟩
    · rw [List.pairwise_append]
      exact ⟨h.nodupKeys, List.pairwise_singleton _ _,
        fun a ha b hb => by
          rw [List.mem_singleton] at hb
          rw [hb]
          exact hnone a ha⟩
    · intro d hd
      rcases List.mem_append.mp hd with hd | hd
      · exact List.mem_append.mpr (Or.inl (h.memOrig d hd))
      · rw [List.mem_singleton] at hd
        rw [hd]
        exact List.mem_append.mpr (Or.inr (List.mem_singleton_self _))
    · intro c hc
      rcases List.mem_append.mp hc with hc | hc
      · obtain ⟨d, hd, hk⟩ := h.covered c hc
        exact ⟨d, List.mem_append.mpr (Or.inl hd), hk⟩
      · rw [List.mem_singleton] at hc
        exact ⟨cur, List.mem_append.mpr (Or.inr (List.mem_singleton_self _)),
          by rw [hc]⟩
    · intro d hd c hc hk
      rcases List.mem_append.mp hd with hd | hd
      · rcases List.mem_append.mp hc with hc | hc
        · exact h.maxConf d hd c hc hk
        · rw [List.mem_singleton] at hc
          have hcontra : candKey cur = candKey d := by rw [← hc]; exact hk
          exact absurd hcontra.symm (hnone d hd)
      · rw [List.mem_singleton] at hd
        rcases List.mem_append.mp hc with hc | hc
        · obtain ⟨d', hd', hk'⟩ := h.covered c hc
          have hcontra : candKey d' = candKey cur := by rw [hk', hk, hd]
          exact absurd hcontra (hnone d' hd')
        · rw [List.mem_singleton] at hc
          rw [hc, hd]
  | some idx =>
    obtain ⟨e, he?, hke⟩ := findKeyIdx_some_getElem _ acc idx hfind
    obtain ⟨hidx, hgete⟩ := List.getElem?_eq_some.mp he?
    have hemem : e ∈ acc := hgete ▸ List.mem_iff_getElem.mpr ⟨idx, hidx, rfl⟩
    by_cases hconf : e.confidence < cur.confidence
    · have hstep : dedupStep acc cur = acc.set idx cur := by
        simp only [dedupStep, hfind, he?]
        rw [if_pos hconf]
      rw [hstep]
      have hkeys : (acc.set idx cur).map candKey = acc.map candKey := by
        apply List.ext_getElem?
        intro n
        rcases eq_or_ne n idx with rfl | hne
        · rw [List.getElem?_map, List.getElem?_map, List.getElem?_set_self hidx,
            List.getElem?_eq_getElem hidx, Option.map_some', Option.map_some',
            hgete, hke]
        · rw [List.getElem?_map, List.getElem?_map,
            List.getElem?_set_ne (Ne.symm hne)]
      refine ⟨?_, ?_, ?_, ?_⟩
      · have hpm := (List.pairwise_map (f := candKey)
          (R := fun a b : String => a ≠ b)).mpr h.nodupKeys
        rw [← hkeys] at hpm
        exact (List.pairwise_map).mp hpm
      · intro d hd
        rcases List.mem_or_eq_of_mem_set hd with hd | hd
        · exact List.mem_append.mpr (Or.inl (h.memOrig d hd))
        · rw [hd]
          exact List.mem_append.mpr (Or.inr (List.mem_singleton_self _))
      · intro c hc
        have hcurmem : cur ∈ acc.set idx cur := List.mem_set acc idx hidx cur
        rcases List.mem_append.mp hc with hc | hc
        · obtain ⟨d, hd, hk⟩ := h.covered c hc
          by_cases hde : candKey d = candKey e
          · exact ⟨cur, hcurmem, hke.symm.trans (hde.symm.trans hk)⟩
          · obtain ⟨j, hj, rfl⟩ := List.mem_iff_getElem.mp hd
            have hjne : j ≠ idx := by
              rintro rfl
              exact hde (by rw [hgete])
            exact ⟨acc[j], getElem_mem_set_of_ne hj hjne cur, hk⟩
        · rw [List.mem_singleton] at hc
          exact ⟨cur, hcurmem, by rw [hc]⟩
      · intro d hd c hc hk
        obtain ⟨j, hj, hdj⟩ := List.mem_iff_getElem.mp hd
        rw [List.length_set] at hj
        rcases eq_or_ne j idx with rfl | hjne
        · have hdcur : d = cur := by
            rw [← hdj]
            exact List.getElem_set_self (by simpa using hj)
          rcases List.mem_append.mp hc with hc | hc
          · have hck : candKey c = candKey e := by rw [hk, hdcur, ← hke]
            have hce : c.confidence ≤ e.confidence := h.maxConf e hemem c hc hck
            rw [hdcur]
            omega
          · rw [List.mem_singleton] at hc
            rw [hc, hdcur]
        · have hdval : d = acc[j] := by
            rw [← hdj]
            exact List.getElem_set_ne (Ne.symm hjne) (by simpa using hj)
          have hdmem : d ∈ acc := hdval ▸ List.mem_iff_getElem.mpr ⟨j, hj, rfl⟩
          have hdke : candKey d ≠ candKey e := by
            rcases Nat.lt_trichotomy j idx with hlt | heq | hlt
            · have hpw := List.pairwise_iff_getElem.mp h.nodupKeys j idx hj hidx hlt
              rw [← hdval, hgete] at hpw
              exact hpw
            · exact absurd heq hjne
            · have hpw := List.pairwise_iff_getElem.mp h.nodupKeys idx j hidx hj hlt
              rw [← hdval, hgete] at hpw
              exact Ne.symm hpw
          rcases List.mem_append.mp hc with hc | hc
          · exact h.maxConf d hdmem c hc hk
          · rw [List.mem_singleton] at hc
            have hcontra : candKey d = candKey e := by rw [← hk, hc, ← hke]
            exact absurd hcontra hdke
    · have hstep : dedupStep acc cur = acc := by
        simp only [dedupStep, hfind, he?]
        rw [if_neg hconf]
      rw [hstep]
      refine ⟨h.nodupKeys, ?_, ?_, ?_⟩
      · intro d hd
        exact List.mem_append.mpr (Or.inl (h.memOrig d hd))
      · intro c hc
        rcases List.mem_append.mp hc with hc | hc
        · exact h.covered c hc
        · rw [List.mem_singleton] at hc
          exact ⟨e, hemem, by rw [hke, hc]⟩
      · intro d hd c hc hk
        rcases List.mem_append.mp hc with hc | hc
        · exact h.maxConf d hd c hc hk
        · rw [List.mem_singleton] at hc
          have hde : candKey d = candKey e := by rw [← hk, hc, ← hke]
          have hDE : d = e := pairwiseKeys_unique h.nodupKeys hd hemem hde
          rw [hc, hDE]
          omega

theorem dedup_foldl_inv :
    ∀ (rest processed acc : List Candidate), DedupInv processed acc →
      DedupInv (processed ++ rest) (rest.foldl dedupStep acc) := by
  intro rest
  induction rest with
  | nil => intro processed acc h; simpa using h
  | cons c cs ih =>
    intro processed acc h
    have step := dedupStep_inv c h
    have := ih (processed ++ [c]) (dedupStep acc c) step
    simpa using this

/-- The deduplication invariant holds of the full fold. -/
theorem dedupCandidates_inv (l : List Candidate) :
    DedupInv l (dedupCandidates l) := by
  have := dedup_foldl_inv l [] [] ⟨List.Pairwise.nil, by simp, by simp, by simp⟩
  simpa [dedupCandidates] using this

/-- Claim C2: the normalization maps "Acme LLC" and "ACME, L.L.C." to the same
key; deduplication merges equal-key candidates into one surviving entry whose
confidence is the maximum of the group, and never merges distinct keys (every
input key keeps a representative, and the output's keys are pairwise
distinct). -/
theorem claim_C2_dedup (l : List Candidate) :
    normalizeKey ("Acme LLC") = normalizeKey ("ACME, L.L.C.") ∧
    (dedupCandidates l).Pairwise (fun a b => candKey a ≠ candKey b) ∧
    (∀ d ∈ dedupCandidates l, d ∈ l ∧
      ∀ c ∈ l, candKey c = candKey d → c.confidence ≤ d.confidence) ∧
    (∀ c ∈ l, ∃ d ∈ dedupCandidates l, candKey d = candKey c) := by
  have hinv := dedupCandidates_inv l
  refine ⟨by decide, hinv.nodupKeys, ?_, hinv.covered⟩
  intro d hd
  exact ⟨hinv.memOrig d hd, hinv.maxConf d hd⟩

/-- Witness for claim C2 at a concrete list: the two "Acme" spellings collapse
and the surviving entry dominates the group's confidences. -/
theorem claim_C2_dedup_witness :
    normalizeKey ("Acme LLC") = normalizeKey ("ACME, L.L.C.") ∧
    (∃ d ∈ dedupCandidates
        [⟨"Acme LLC", 60, "p", "m", "ctx"⟩, ⟨"ACME, L.L.C.", 70, "q", "n", "ctx"⟩],
      candKey d = candKey ⟨"Acme LLC", 60, "p", "m", "ctx"⟩) := by
  refine ⟨(claim_C2_dedup []).1, ?_⟩
  exact (claim_C2_dedup
    [⟨"Acme LLC", 60, "p", "m", "ctx"⟩, ⟨"ACME, L.L.C.", 70, "q", "n", "ctx"⟩]).2.2.2
    ⟨"Acme LLC", 60, "p", "m", "ctx"⟩ (by simp)

/-! ### Ranking invariant shared by both extractors -/

theorem mem_insertDesc {x c : Candidate} {l : List Candidate} :
    x ∈ insertDesc c l ↔ x = c ∨ x ∈ l := by
  induction l with
  | nil => simp [insertDesc]
  | cons d ds ih =>
    by_cases h : byConfidenceDesc d c
    · simp only [insertDesc, if_pos h, List.mem_cons, ih]
      tauto
    · simp only [insertDesc, if_neg h, List.mem_cons]

theorem insertDesc_sorted (c : Candidate) (l : List Candidate)
    (h : l.Pairwise (fun a b => b.confidence ≤ a.confidence)) :
    (insertDesc c l).Pairwise (fun a b => b.confidence ≤ a.confidence) := by
  induction l with
  | nil => simp [insertDesc]
  | cons d ds ih =>
    rw [List.pairwise_cons] at h
    obtain ⟨hd, hds⟩ := h
    by_cases hcd : byConfidenceDesc d c
    · rw [insertDesc, if_pos hcd, List.pairwise_cons]
      refine ⟨?_, ih hds⟩
      intro x hx
      rcases mem_insertDesc.mp hx with rfl | hx
      · simpa [byConfidenceDesc] using hcd
      · exact hd x hx
    · rw [insertDesc, if_neg hcd, List.pairwise_cons]
      have hdc : d.confidence ≤ c.confidence := by
        simp [byConfidenceDesc] at hcd
        omega
      refine ⟨?_, List.pairwise_cons.mpr ⟨hd, hds⟩⟩
      intro x hx
      rcases List.mem_cons.mp hx with rfl | hx
      · exact hdc
      · exact le_trans (hd x hx) hdc

theorem sortByConfDesc_sorted (l : List Candidate) :
    (sortByConfDesc l).Pairwise (fun a b => b.confidence ≤ a.confidence) := by
  induction l with
  | nil => simp [sortByConfDesc]
  | cons c cs ih => exact insertDesc_sorted c _ ih

/-- The ranking step produces at most five candidates, sorted non-increasing
by confidence. -/
theorem rankCandidates_spec (l : List Candidate) :
    (rankCandidates l).length ≤ 5 ∧
    (rankCandidates l).Pairwise (fun a b => b.confidence ≤ a.confidence) := by
  constructor
  · simp [rankCandidates]
  · exact (sortByConfDesc_sorted (dedupCandidates l)).sublist (List.take_sublist _ _)

/-! ## Confidence adjustment (`calculateConfidence`, src/server.js lines
561-585 and 1736-1752) -/

/-- Occurrence count used by `calculateConfidence`: the cleaned name is
regex-escaped, so `fullText.match(new RegExp(escaped, 'gi'))` counts
non-overlapping case-insensitive literal occurrences. -/
def occurrencesOf (cleanName fullText : String) : Nat :=
  countOcc (lowerList cleanName.data) (lowerList fullText.data)

/-- JavaScript `indexOf`, returning -1 when the pattern is absent. -/
def jsIndexOf (pat l : List Char) : Int :=
  match indexOfList pat l with
  | some i => (i : Int)
  | none => -1

/-- The confidence adjustment of the standard extractor as it appears at
src/server.js lines 1736-1752 (no business-word bonus). -/
def calculateConfidence (matchS fullText : String) (baseConfidence : Int)
    (cleanName : String) : Int :=
  let occurrences := occurrencesOf cleanName fullText
  let c1 := baseConfidence + min ((occurrences : Int) * 3) 15
  let position := jsIndexOf (lowerList matchS.data) (lowerList fullText.data)
  let c2 := if position < 200 then c1 + 10
            else if position < 500 then c1 + 5 else c1
  let nameLength := cleanName.length
  let c3 := if 5 ≤ nameLength ∧ nameLength ≤ 30 then c2 + 5 else c2
  let c4 := if nameLength < 3 then c3 - 15 else c3
  let c5 := if 50 < nameLength then c4 - 10 else c4
  min c5 100

/-- The business words of the earlier revision's bonus test
`/(solutions|services|...)/i`. -/
def businessWords : List String :=
  ["solutions", "services", "systems", "technologies", "consulting",
   "industries", "enterprises", "group", "partners"]

/-- Does the cleaned name contain one of the business words
(case-insensitively)? -/
def hasBusinessWord (cleanName : String) : Bool :=
  businessWords.any (fun w => containsCI cleanName.data w.data)

/-- The confidence adjustment as it appears at src/server.js lines 561-585:
identical except for a +3 business-word bonus before clamping. -/
def calculateConfidenceV1 (matchS fullText : String) (baseConfidence : Int)
    (cleanName : String) : Int :=
  let occurrences := occurrencesOf cleanName fullText
  let c1 := baseConfidence + min ((occurrences : Int) * 3) 15
  let position := jsIndexOf (lowerList matchS.data) (lowerList fullText.data)
  let c2 := if position < 200 then c1 + 10
            else if position < 500 then c1 + 5 else c1
  let nameLength := cleanName.length
  let c3 := if 5 ≤ nameLength ∧ nameLength ≤ 30 then c2 + 5 else c2
  let c4 := if nameLength < 3 then c3 - 15 else c3
  let c5 := if 50 < nameLength then c4 - 10 else c4
  let c6 := if hasBusinessWord cleanName then c5 + 3 else c5
  min c6 100

/-- Base confidences the pattern strategies of src/server.js pass to
`calculateConfidence` (pattern tables at lines 436-457 and 1648-1669). -/
def patternBaseConfidences : List Int := [55, 40, 45, 40, 60, 45, 50, 45]

/-- Claim C3: for every candidate produced by the pattern strategy (i.e. for
every base confidence drawn from the pattern tables), the value computed by
`calculateConfidence` lies in the closed interval [0, 100] — in both source
revisions of the function. -/
theorem claim_C3_confidence_range (matchS fullText cleanName : String)
    (base : Int) (hb : base ∈ patternBaseConfidences) :
    (0 ≤ calculateConfidence matchS fullText base cleanName ∧
     calculateConfidence matchS fullText base cleanName ≤ 100) ∧
    (0 ≤ calculateConfidenceV1 matchS fullText base cleanName ∧
     calculateConfidenceV1 matchS fullText base cleanName ≤ 100) := by
  have hb' : 40 ≤ base ∧ base ≤ 60 := by
    simp only [patternBaseConfidences, List.mem_cons, List.mem_singleton,
      List.not_mem_nil, or_false] at hb
    rcases hb with rfl | rfl | rfl | rfl | rfl | rfl | rfl | rfl <;> omega
  have hocc : (0 : Int) ≤ (occurrencesOf cleanName fullText : Int) := by positivity
  simp only [calculateConfidence, calculateConfidenceV1]
  split_ifs <;> omega

/-- Witness for claim C3 at a concrete base confidence and concrete strings. -/
theorem claim_C3_confidence_range_witness :
    ((40 : Int) ∈ patternBaseConfidences) ∧
    0 ≤ calculateConfidence ("Acme LLC") ("Acme LLC filing") 40 ("Acme") ∧
    calculateConfidence ("Acme LLC") ("Acme LLC filing") 40 ("Acme") ≤ 100 := by
  refine ⟨by decide, ?_, ?_⟩
  · exact (claim_C3_confidence_range ("Acme LLC") ("Acme LLC filing") ("Acme")
      40 (by decide)).1.1
  · exact (claim_C3_confidence_range ("Acme LLC") ("Acme LLC filing") ("Acme")
      40 (by decide)).1.2

/-! ## A small backtracking regex engine

The source's patterns use character classes, ordered alternation, one
capturing group, greedy bounded/unbounded repetition and `\b` word
boundaries.  The matcher below implements exactly JavaScript's prioritized
backtracking order (leftmost start position, left alternative first, greedy
repetition) in continuation-passing style.  It is structurally recursive on
an explicit fuel argument so that it evaluates inside the kernel; the fuel
budget below comfortably exceeds the recursion depth reachable by the
transcribed patterns (each repetition iteration and each node on a search
path costs one unit). -/

/-- Regex AST for the constructs appearing in the source's pattern literals. -/
inductive Rx where
  | eps : Rx
  | cls (p : Char → Bool) : Rx
  | seq (a b : Rx) : Rx
  | alt (a b : Rx) : Rx
  | grp (a : Rx) : Rx
  | rep (lo : Nat) (hi : Option Nat) (a : Rx) : Rx
  | wb : Rx

/-- Structural size of a pattern, used only to compute a fuel budget. -/
def rxSize : Rx → Nat
  | .eps => 1
  | .cls _ => 1
  | .wb => 1
  | .seq a b => rxSize a + rxSize b + 1
  | .alt a b => rxSize a + rxSize b + 1
  | .grp a => rxSize a + 1
  | .rep _ hi a =>
    (rxSize a + 1) * (match hi with | some n => n + 1 | none => 1) + 1

/-- Backtracking matcher.  `mtch s fuel r i g k` tries to match `r` at
position `i` of `s` with current group-1 capture `g`, calling the
continuation `k` at each candidate end position in JavaScript's priority
order.  An unbounded repetition whose body matched without consuming input
stops iterating (none of the transcribed patterns has a nullable repetition
body, so this guard is never reached on them). -/
def mtch (s : Array Char) : Nat → Rx → Nat → Option (Nat × Nat) →
    (Nat → Option (Nat × Nat) → Option (Nat × Option (Nat × Nat))) →
    Option (Nat × Option (Nat × Nat))
  | 0, _, _, _, _ => none
  | fuel + 1, rx, i, g, k =>
    match rx with
    | .eps => k i g
    | .cls p =>
      if h : i < s.size then (if p s[i] then k (i + 1) g else none) else none
    | .seq a b => mtch s fuel a i g (fun j g2 => mtch s fuel b j g2 k)
    | .alt a b =>
      match mtch s fuel a i g k with
      | some r => some r
      | none => mtch s fuel b i g k
    | .grp a => mtch s fuel a i g (fun j _ => k j (some (i, j)))
    | .rep lo hi a =>
      let canIter : Bool := match hi with | some n => n != 0 | none => true
      let iterated :=
        if canIter then
          mtch s fuel a i g (fun j g2 =>
            if i < j then mtch s fuel (.rep (lo - 1) (hi.map (· - 1)) a) j g2 k
            else none)
        else none
      match iterated with
      | some r => some r
      | none => if lo = 0 then k i g else none
    | .wb =>
      let wl := if _h : 0 < i ∧ i - 1 < s.size then isWordChar s[i - 1] else false
      let wr := if _h : i < s.size then isWordChar s[i] else false
      if wl != wr then k i g else none

/-- Fuel budget for one match attempt. -/
def mtchFuel (s : Array Char) (r : Rx) : Nat := (s.size + 2) * (rxSize r + 2) * 4

/-- Find the leftmost match at or after position `i`; returns
(start, end, group-1 span).  The counter is the number of start positions
left to try. -/
def execFromF (s : Array Char) (r : Rx) : Nat → Nat → Option (Nat × Nat × Option (Nat × Nat))
  | 0, _ => none
  | tries + 1, i =>
    if i ≤ s.size then
      match mtch s (mtchFuel s r) r i none (fun j g => some (j, g)) with
      | some (e, g) => some (i, e, g)
      | none => execFromF s r tries (i + 1)
    else none

/-- Leftmost match at or after `i`, the search performed by `exec`. -/
def execFrom (s : Array Char) (r : Rx) (i : Nat) : Option (Nat × Nat × Option (Nat × Nat)) :=
  execFromF s r (s.size + 1 - i) i

/-- The two strings JavaScript exposes for a match: `match[0]` and
`match[1]`. -/
structure RxMatch where
  fullMatch : String
  group1 : Option String
deriving Repr, DecidableEq

/-- Substring of an array between two positions. -/
def sliceStr (s : Array Char) (a b : Nat) : String :=
  String.mk ((s.toList.drop a).take (b - a))

/-- The repeated-`exec` loop over a `/g` regex, advancing `lastIndex` to each
match end.  The first argument caps the number of matches collected: the
enhanced extractor stops after 10 matches per pattern, the other call sites
are capped by the text length (a `/g` loop over these patterns advances by at
least one character per match).  A hypothetical empty match is collected once
and the loop stops (JavaScript would re-deliver it forever; the transcribed
patterns can never match empty). -/
def execLoop (s : Array Char) (r : Rx) : Nat → Nat → List RxMatch
  | 0, _ => []
  | count + 1, li =>
    match execFrom s r li with
    | none => []
    | some (st, en, g) =>
      let m : RxMatch := ⟨sliceStr s st en, g.map (fun p => sliceStr s p.1 p.2)⟩
      if st < en then m :: execLoop s r count en
      else [m]

/-! ### Pattern-building helpers -/

/-- Literal character (case-sensitive). -/
def litC (c : Char) : Rx := .cls (fun x => x == c)

/-- Literal character under the `/i` flag. -/
def litCI (c : Char) : Rx := .cls (fun x => x.toLower == c.toLower)

/-- Sequence a list of regexes. -/
def seqList (rs : List Rx) : Rx := rs.foldr .seq .eps

/-- Case-sensitive literal string. -/
def strRx (cs : List Char) : Rx := seqList (cs.map litC)

/-- Case-insensitive literal string. -/
def strRxCI (cs : List Char) : Rx := seqList (cs.map litCI)

/-- The quantified whitespace `\s+`. -/
def wsPlus : Rx := .rep 1 none (.cls isSpaceChar)

/-- The quantified whitespace `\s*`. -/
def wsStar : Rx := .rep 0 none (.cls isSpaceChar)

/-- The noise gap `[^A-Za-z]{0,n}` used by the OCR-tolerant patterns. -/
def gapRx (n : Nat) : Rx := .rep 0 (some n) (.cls (fun c => !isAlpha c))

/-- The optional comma `,?`. -/
def optComma : Rx := .rep 0 (some 1) (litC ',')

/-- The name class `[A-Za-z\s&\.\-',]` (with comma). -/
def nameClsComma (c : Char) : Bool :=
  isAlpha c || isSpaceChar c || c == '&' || c == '.' || c == '-' ||
  c == apos || c == ','

/-- The name class `[A-Za-z\s&\.\-']` (without comma). -/
def nameCls (c : Char) : Bool :=
  isAlpha c || isSpaceChar c || c == '&' || c == '.' || c == '-' || c == apos

/-- Letters of a word interleaved with `[^A-Za-z]{0,g}` noise gaps, the shape
of the character-hunt patterns. -/
def interGaps (g : Nat) : List Char → List Rx
  | [] => []
  | [c] => [litCI c]
  | c :: cs => litCI c :: gapRx g :: interGaps g cs

/-! ## The enhanced company-name extractor
(`extractCompanyNamesEnhanced`, part_000 lines 769-979) -/

/-- The keep class of `replace(/[^\w\s&\.\-',]/g, ...)`. -/
def isNameKeep (c : Char) : Bool :=
  isWordChar c || isSpaceChar c || c == '&' || c == '.' || c == '-' ||
  c == apos || c == ','

/-- `replace(/[^\w\s&\.\-',]/g, ' ')`: non-name characters become spaces. -/
def replaceNonNameWithSpace (l : List Char) : List Char :=
  l.map (fun c => if isNameKeep c then c else ' ')

/-- `replace(/[^\w\s&\.\-',]/g, '')`: non-name characters are deleted
(the standard extractor's variant). -/
def dropNonName (l : List Char) : List Char := l.filter isNameKeep

/-- `replace(/\b[a-z]\b/g, '')`: delete every single lowercase letter that has
word boundaries on both sides (boundaries judged on the original string, as a
single global pass does). -/
def stripLoneLowerAux : Option Char → List Char → List Char
  | _, [] => []
  | prev, c :: cs =>
    let lb : Bool := match prev with | none => true | some p => !isWordChar p
    let rb : Bool := match cs with | [] => true | d :: _ => !isWordChar d
    if isLowerAlpha c && lb && rb then stripLoneLowerAux (some c) cs
    else c :: stripLoneLowerAux (some c) cs

/-- Strip isolated lowercase letters. -/
def stripLoneLower (l : List Char) : List Char := stripLoneLowerAux none l

/-- Fuelled worker for `replace(/\b[0-9]+\b/g, '')`: a maximal digit run is
deleted exactly when both sides are word boundaries (shorter sub-runs can
never satisfy the trailing boundary, digits being word characters). -/
def stripDigitRunsF : Nat → Option Char → List Char → List Char
  | 0, _, _ => []
  | _, _, [] => []
  | fuel + 1, prev, c :: cs =>
    if isDigitChar c then
      let run := c :: cs.takeWhile isDigitChar
      let rest := cs.dropWhile isDigitChar
      let lb : Bool := match prev with | none => true | some p => !isWordChar p
      let rb : Bool := match rest with | [] => true | d :: _ => !isWordChar d
      let last := run.getLastD c
      if lb && rb then stripDigitRunsF fuel (some last) rest
      else run ++ stripDigitRunsF fuel (some last) rest
    else c :: stripDigitRunsF fuel (some c) cs

/-- Strip digit runs bounded by word boundaries. -/
def stripDigitRuns (l : List Char) : List Char := stripDigitRunsF l.length none l

/-- The cleanup chain applied to a captured company fragment:
trim, noise to spaces, collapse, drop lone lowercase letters, drop digit
runs, collapse, trim. -/
def enhancedCleanCompanyPart (cp : List Char) : List Char :=
  jsTrim (collapseWs (stripDigitRuns (stripLoneLower
    (collapseWs (replaceNonNameWithSpace (jsTrim cp))))))

/-- The final `replace(/\b[0-9]+\b/g, '').replace(/\s+/g, ' ').trim()`
applied after the entity suffix is appended. -/
def finalRestrip (l : List Char) : List Char := jsTrim (collapseWs (stripDigitRuns l))

/-- Entity-type inference of the enhanced extractor:
`/PLLC/i`, `/Inc/i`, `/Corp/i` tested against the full match, default LLC. -/
def entityTypeEnhanced (fullMatch : String) : String :=
  if containsCI fullMatch.data ("PLLC").data then "PLLC"
  else if containsCI fullMatch.data ("Inc").data then "Inc."
  else if containsCI fullMatch.data ("Corp").data then "Corp."
  else "LLC"

/-- Plain-word alternatives of the enhanced deny test
`/^(article|certificate|department|the\s+name|stream|endobj|filter|length|decode)/i`. -/
def denyWords : List String :=
  ["article", "certificate", "department", "stream", "endobj",
   "filter", "length", "decode"]

/-- The `the\s+name` alternative: "the", at least one whitespace, "name". -/
def startsTheName (l : List Char) : Bool :=
  startsWithList ("the").data l &&
    (match l.drop 3 with
     | [] => false
     | d :: _ =>
       isSpaceChar d && startsWithList ("name").data ((l.drop 3).dropWhile isSpaceChar))

/-- The enhanced extractor's deny test (case-insensitive prefix match). -/
def denyTestEnhanced (s : String) : Bool :=
  let l := lowerList s.data
  denyWords.any (fun w => startsWithList w.data l) || startsTheName l

/-- `getContext`: ±50 characters around the first occurrence of the match. -/
def getContext (text m : String) : String :=
  match indexOfList m.data text.data with
  | none => ""
  | some index =>
    let start := index - 50
    let stop := Nat.min text.data.length (index + m.data.length + 50)
    String.mk ((text.data.drop start).take (stop - start))

/-- One entry of the enhanced pattern table. -/
structure EPattern where
  name : String
  rx : Rx
  confidence : Nat
  extractName : Option String

/-- The nine `enhancedPatterns` of part_000 lines 786-849, transcribed
pattern by pattern (under `/i`, the classes `[A-Z]` and `[a-z]` of the last
pattern match any letter). -/
def enhancedPatterns : List EPattern :=
  [ { name := "BitConcepts Direct Search",
      rx := seqList [strRxCI ("BitConcepts").data, gapRx 20, strRxCI ("LLC").data],
      confidence := 95,
      extractName := some "BitConcepts, LLC" },
    { name := "PORVIN Direct Search",
      rx := seqList [strRxCI ("PORVIN").data, gapRx 100, strRxCI ("PLLC").data],
      confidence := 90,
      extractName := some "PORVIN, BURNSTEIN & GARELIK, PLLC" },
    { name := "BitConcepts Character Hunt",
      rx := seqList (interGaps 5 ("bitconcepts").data ++ [gapRx 20] ++
        interGaps 5 ("llc").data),
      confidence := 85,
      extractName := some "BitConcepts, LLC" },
    { name := "PORVIN Character Hunt",
      rx := seqList (interGaps 5 ("porvin").data ++ [gapRx 50] ++
        interGaps 5 ("pllc").data),
      confidence := 80,
      extractName := some "PORVIN, BURNSTEIN & GARELIK, PLLC" },
    { name := "Articles Company Declaration",
      rx := seqList
        [ .alt
            (seqList [strRxCI ("name").data, wsPlus, strRxCI ("of").data, wsPlus,
              strRxCI ("the").data, wsPlus, strRxCI ("limited").data, wsPlus,
              strRxCI ("liability").data, wsPlus, strRxCI ("company").data])
            (seqList [strRxCI ("company").data, wsPlus, strRxCI ("is").data]),
          gapRx 20,
          .grp (seqList [.cls isAlpha, .rep 3 (some 50) (.cls nameClsComma),
            gapRx 10, .alt (strRxCI ("LLC").data) (strRxCI ("PLLC").data)]) ],
      confidence := 75,
      extractName := none },
    { name := "Standard LLC Pattern",
      rx := seqList [.wb,
        .grp (seqList [.cls isUpperAlpha, .rep 2 (some 40) (.cls nameCls)]),
        wsStar, optComma, wsStar,
        .alt (strRx ("LLC").data) (strRx ("L.L.C.").data), .wb],
      confidence := 60,
      extractName := none },
    { name := "Standard PLLC Pattern",
      rx := seqList [.wb,
        .grp (seqList [.cls isUpperAlpha, .rep 2 (some 40) (.cls nameCls)]),
        wsStar, optComma, wsStar,
        .alt (strRx ("PLLC").data) (strRx ("P.L.L.C.").data), .wb],
      confidence := 65,
      extractName := none },
    { name := "Flexible LLC Hunt",
      rx := seqList [.grp (seqList [.cls isAlpha, .rep 5 (some 40) (.cls nameCls)]),
        gapRx 10, .alt (strRxCI ("LLC").data) (strRxCI ("L.L.C.").data)],
      confidence := 50,
      extractName := none },
    { name := "Business Sequence Near LLC",
      rx := seqList [.grp (.rep 2 (some 5)
          (seqList [.cls isAlpha, .rep 1 none (.cls isAlpha), gapRx 5])),
        gapRx 15, .alt (strRxCI ("LLC").data) (strRxCI ("PLLC").data)],
      confidence := 40,
      extractName := none } ]

/-- The final-name computation for one regex match of the enhanced extractor
(part_000 lines 895-929): fixed name for the direct-search patterns,
otherwise clean the captured fragment and re-append the inferred entity
suffix; `none` when the fragment is missing, blank, or cleans to at most two
characters. -/
def enhancedFinalName (p : EPattern) (m : RxMatch) : Option String :=
  match p.extractName with
  | some n => some n
  | none =>
    match m.group1 with
    | none => none
    | some cp =>
      if (jsTrim cp.data).isEmpty then none
      else
        let cleanCompanyPart := enhancedCleanCompanyPart cp.data
        if 2 < cleanCompanyPart.length then
          let entityType := entityTypeEnhanced m.fullMatch
          let base :=
            if containsCI cleanCompanyPart entityType.data then cleanCompanyPart
            else cleanCompanyPart ++ (' ' :: entityType.data)
          some (String.mk (finalRestrip base))
        else none

/-- Processing of one regex match in the enhanced extractor (part_000 lines
887-943): compute the final name, then validate length in [5, 80] and the
deny list before admitting the candidate. -/
def processEnhancedMatch (cleanText : String) (p : EPattern) (m : RxMatch) :
    Option Candidate :=
  match enhancedFinalName p m with
  | none => none
  | some fn =>
    if 5 ≤ fn.length && fn.length ≤ 80 && !denyTestEnhanced fn then
      some ⟨fn, p.confidence, p.name, m.fullMatch, getContext cleanText m.fullMatch⟩
    else none

/-- The text normalization both extractors apply first:
`text.replace(/\s+/g, ' ').replace(/\n+/g, ' ').trim()` (the second
replacement is the identity after the first has run). -/
def jsCleanTextWS (text : String) : String :=
  String.mk (jsTrim (collapseWs text.data))

/-! ### Fragment matching (part_000 lines 852-879) -/

/-- One configured target company of the gazetteer. -/
structure KnownCompany where
  fragments : List String
  name : String
  confidence : Nat
deriving Repr, DecidableEq

/-- The BitConcepts gazetteer entry. -/
def bitConceptsCompany : KnownCompany :=
  { fragments := ["bit", "concepts", "llc"], name := "BitConcepts, LLC",
    confidence := 90 }

/-- The law-firm gazetteer entry. -/
def porvinCompany : KnownCompany :=
  { fragments := ["porvin", "burnstein", "garelik", "pllc"],
    name := "PORVIN, BURNSTEIN & GARELIK, PLLC", confidence := 85 }

/-- The hard-coded `knownCompanies` table. -/
def knownCompanies : List KnownCompany := [bitConceptsCompany, porvinCompany]

/-- Tokens of the document text: the matches of `/[A-Za-z]{3,}/g`. -/
def textTokens (cleanText : String) : List (List Char) :=
  (runsOf isAlpha cleanText.data).filter (fun w => 3 ≤ w.length)

/-- Fragments of a company found among the tokens, by lowercased substring
containment. -/
def foundFragments (co : KnownCompany) (tokens : List (List Char)) : List String :=
  co.fragments.filter (fun f => tokens.any (fun w => containsList (lowerList w) f.data))

/-- `Math.ceil(n * 0.6)` for the fragment counts in play (exact: the floating
computation rounds identically for every list length the table uses). -/
def ceil60 (n : Nat) : Nat := (3 * n + 4) / 5

/-- The candidate pushed for a gazetteer company whose fragment threshold is
met. -/
def fragmentCandidateOf (co : KnownCompany) (found : List String) : Candidate :=
  ⟨co.name, co.confidence, "Fragment Matching",
    String.intercalate " + " found, "Found by matching word fragments"⟩

/-- The fragment-matching strategy: emit a company's canonical name when at
least 60% of its fragments are present among the tokens. -/
def fragmentCandidates (cleanText : String) : List Candidate :=
  knownCompanies.filterMap (fun co =>
    let found := foundFragments co (textTokens cleanText)
    if ceil60 co.fragments.length ≤ found.length then
      some (fragmentCandidateOf co found)
    else none)

/-- All candidates the enhanced pattern table finds in the cleaned text,
10 matches per pattern at most (the loop's `matchCount < 10` guard). -/
def enhancedPatternCandidates (cleanText : String) : List Candidate :=
  enhancedPatterns.flatMap (fun p =>
    (execLoop cleanText.data.toArray p.rx 10 0).filterMap
      (processEnhancedMatch cleanText p))

/-- The enhanced extractor: guard degenerate input, normalize whitespace, run
fragment matching then the pattern table, deduplicate, sort by confidence
descending, return the top five. -/
def extractCompanyNamesEnhanced (text : String) : List Candidate :=
  if text.length < 5 then []
  else
    let cleanText := jsCleanTextWS text
    rankCandidates (fragmentCandidates cleanText ++
      enhancedPatternCandidates cleanText)

/-! ## The standard company-name extractor
(`extractCompanyNames`, part_000 lines 982-1056) -/

/-- One entry of the standard pattern table. -/
structure SPattern where
  name : String
  rx : Rx
  confidence : Nat

/-- The three standard patterns of part_000 lines 989-1005. -/
def standardPatterns : List SPattern :=
  [ { name := "Articles LLC Format",
      rx := seqList
        [ strRxCI ("name").data, wsPlus, strRxCI ("of").data, wsPlus,
          strRxCI ("the").data, wsPlus, strRxCI ("limited").data, wsPlus,
          strRxCI ("liability").data, wsPlus, strRxCI ("company").data, wsPlus,
          strRxCI ("is").data, wsStar, .rep 0 (some 1) (litC ':'), wsStar,
          .grp (seqList [.cls isAlpha, .rep 2 (some 50) (.cls nameClsComma),
            wsStar, optComma, wsStar, strRxCI ("LLC").data]) ],
      confidence := 60 },
    { name := "Standard LLC",
      rx := seqList [.wb,
        .grp (seqList [.cls isUpperAlpha, .rep 2 (some 50) (.cls nameCls)]),
        wsStar, optComma, wsStar,
        .alt (strRx ("LLC").data) (strRx ("L.L.C.").data), .wb],
      confidence := 45 },
    { name := "Professional LLC (PLLC)",
      rx := seqList [.wb,
        .grp (seqList [.cls isUpperAlpha, .rep 2 (some 50) (.cls nameCls)]),
        wsStar, optComma, wsStar,
        .alt (strRx ("PLLC").data) (strRx ("P.L.L.C.").data), .wb],
      confidence := 50 } ]

/-- Entity-type inference of the standard extractor, word-boundary regex
tests in order with LLC as the default. -/
def entityTypeStandard (fullMatch : String) : String :=
  let s := fullMatch.data.toArray
  let test := fun (r : Rx) => (execFrom s r 0).isSome
  if test (seqList [.wb, .alt (strRxCI ("PLLC").data) (strRxCI ("P.L.L.C.").data), .wb])
    then "PLLC"
  else if test (seqList [.wb,
      .alt (seqList [strRxCI ("Inc").data, .rep 0 (some 1) (litC '.')])
           (strRxCI ("Incorporated").data), .wb])
    then "Inc."
  else if test (seqList [.wb,
      .alt (seqList [strRxCI ("Corp").data, .rep 0 (some 1) (litC '.')])
           (strRxCI ("Corporation").data), .wb])
    then "Corp."
  else "LLC"

/-- The cleanup the standard extractor applies to a captured fragment:
`trim`, collapse whitespace, delete non-name characters, `trim`. -/
def standardCleanName (cp : List Char) : List Char :=
  jsTrim (dropNonName (collapseWs (jsTrim cp)))

/-- Processing of one regex match in the standard extractor (part_000 lines
1012-1033): clean the fragment, require length in [2,70] and a leading
capital, append the entity suffix when missing. -/
def processStandardMatch (cleanText : String) (p : SPattern) (m : RxMatch) :
    Option Candidate :=
  match m.group1 with
  | none => none
  | some cp =>
    let cleanName := standardCleanName cp.data
    let headUpper : Bool := match cleanName with
      | [] => false
      | c :: _ => isUpperAlpha c
    if 2 ≤ cleanName.length && cleanName.length ≤ 70 && headUpper then
      let entityType := entityTypeStandard m.fullMatch
      let finalName :=
        if !containsCI cleanName entityType.data then
          String.mk (cleanName ++ (' ' :: entityType.data))
        else String.mk cleanName
      some ⟨finalName, p.confidence, p.name, m.fullMatch,
        getContext cleanText m.fullMatch⟩
    else none

/-- The standard extractor (no per-pattern match cap; its `/g` loops advance
at least one character per match, so the text length bounds the count). -/
def extractCompanyNames (text : String) : List Candidate :=
  if text.length < 5 then []
  else
    let cleanText := jsCleanTextWS text
    rankCandidates (standardPatterns.flatMap (fun p =>
      (execLoop cleanText.data.toArray p.rx (cleanText.length + 1) 0).filterMap
        (processStandardMatch cleanText p)))

/-! ### Claims C1, C8, C9 and C10 -/

/-- Claim C1: for every input text, both company-name extractors return at
most five candidates, sorted non-increasing by confidence (every earlier
entry's confidence is at least every later entry's). -/
theorem claim_C1_ranking (text : String) :
    ((extractCompanyNamesEnhanced text).length ≤ 5 ∧
     (extractCompanyNamesEnhanced text).Pairwise
       (fun a b => b.confidence ≤ a.confidence)) ∧
    ((extractCompanyNames text).length ≤ 5 ∧
     (extractCompanyNames text).Pairwise
       (fun a b => b.confidence ≤ a.confidence)) := by
  constructor
  · unfold extractCompanyNamesEnhanced
    by_cases h : text.length < 5
    · simp [h]
    · simp only [if_neg h]
      exact rankCandidates_spec _
  · unfold extractCompanyNames
    by_cases h : text.length < 5
    · simp [h]
    · simp only [if_neg h]
      exact rankCandidates_spec _

/-! ### The JavaScript call boundary of the extractors (claim C10)

The extractors' public interface also admits `null` and `undefined`, so the
call boundary is modelled with an argument type covering the nullish values,
and JavaScript property access on it as a fallible operation: reading
`.length` or calling `.substring` on a nullish value throws a `TypeError`.
`extractCompanyNamesEnhanced` performs exactly such reads in its two logging
statements *before* the `!text || text.length < 5` guard (part_000 lines
771-772; likewise src/server.js lines 1487-1488), while part_000's
`extractCompanyNames` touches nothing of the text before its guard (lines
983-985). -/

/-- A JavaScript call argument: a string, or a nullish value (`null` and
`undefined`, which behave identically here: both are falsy and both make
property access throw). -/
inductive JsArg where
  | str (s : String) : JsArg
  | nullish : JsArg
deriving Repr, DecidableEq

/-- Property read `text.length`: throws a `TypeError` on a nullish value
(the engine's message linearized, apostrophes omitted). -/
def jsStrLength : JsArg → Except String Nat
  | .str s => .ok s.length
  | .nullish => .error "TypeError: Cannot read properties of null (reading length)"

/-- Method call `text.substring(a, b)`: throws a `TypeError` on a nullish
value. -/
def jsSubstring : JsArg → Nat → Nat → Except String String
  | .str s, a, b => .ok (String.mk ((s.data.drop a).take (b - a)))
  | .nullish, _, _ => .error "TypeError: Cannot read properties of null (reading substring)"

/-- The enhanced extractor at its JavaScript call boundary (part_000 lines
769-776): the two logging statements dereference `text` before the guard, so
a nullish argument throws there; a string argument proceeds into the string
pipeline (whose own first step is the `!text || text.length < 5` guard). -/
def extractCompanyNamesEnhancedJS (text : JsArg) : Except String (List Candidate) := do
  let _ ← jsStrLength text
  let _ ← jsSubstring text 0 500
  match text with
  | .nullish => pure []
  | .str s => pure (extractCompanyNamesEnhanced s)

/-- The standard extractor of part_000 at its JavaScript call boundary
(lines 982-987): nothing dereferences `text` before the guard, so a nullish
argument reaches `!text` and returns the empty list. -/
def extractCompanyNamesJS : JsArg → Except String (List Candidate)
  | .nullish => .ok []
  | .str s => .ok (extractCompanyNames s)

/-- Counterexample to claim C10 as stated: called on a nullish argument, the
enhanced extractor throws a `TypeError` from the logging that precedes its
guard instead of returning the empty list without error. -/
theorem claim_C10_counterexample :
    extractCompanyNamesEnhancedJS JsArg.nullish =
      .error ("TypeError: Cannot read properties of null (reading length)") := rfl

/-- Claim C10 as amended: for every input that is empty or shorter than five
characters, both extractors return the empty list without raising an error —
and on null/undefined input the same still holds for part_000's
`extractCompanyNames` (whose guard is the first thing to touch the text),
but not for `extractCompanyNamesEnhanced`, which throws a `TypeError` from
its pre-guard logging and is therefore excluded from the nullish case. -/
theorem claim_C10_degenerate_input (text : String) (h : text.length < 5) :
    extractCompanyNamesEnhancedJS (JsArg.str text) = .ok [] ∧
    extractCompanyNamesJS (JsArg.str text) = .ok [] ∧
    extractCompanyNamesJS JsArg.nullish = .ok [] := by
  have henh : extractCompanyNamesEnhanced text = [] := by
    simp [extractCompanyNamesEnhanced, h]
  have hstd : extractCompanyNames text = [] := by
    simp [extractCompanyNames, h]
  refine ⟨?_, ?_, rfl⟩
  · show Except.ok (extractCompanyNamesEnhanced text) = Except.ok ([] : List Candidate)
    rw [henh]
  · show Except.ok (extractCompanyNames text) = Except.ok ([] : List Candidate)
    rw [hstd]

/-- Witness for the amended claim C10 at the empty string and a
three-character string. -/
theorem claim_C10_degenerate_input_witness :
    ("" : String).length < 5 ∧ ("abc" : String).length < 5 ∧
    extractCompanyNamesEnhancedJS (JsArg.str ("")) = .ok [] ∧
    extractCompanyNamesJS (JsArg.str ("abc")) = .ok [] ∧
    extractCompanyNamesJS JsArg.nullish = .ok [] :=
  ⟨by decide, by decide, (claim_C10_degenerate_input ("") (by decide)).1,
   (claim_C10_degenerate_input ("abc") (by decide)).2.1,
   (claim_C10_degenerate_input ("") (by decide)).2.2⟩

/-- Claim C8: a matched candidate is added to the pattern strategy's result
list only if its final cleaned name has length in [3, 80] and does not begin
with a denylisted document-structure word (the source's gate is in fact
stricter on the lower bound, requiring length at least 5). -/
theorem claim_C8_validation (cleanText : String) (c : Candidate)
    (hc : c ∈ enhancedPatternCandidates cleanText) :
    3 ≤ c.name.length ∧ c.name.length ≤ 80 ∧ denyTestEnhanced c.name = false := by
  simp only [enhancedPatternCandidates, List.mem_flatMap, List.mem_filterMap] at hc
  obtain ⟨p, hp, m, hm, hpm⟩ := hc
  cases hfn : enhancedFinalName p m with
  | none =>
    simp only [processEnhancedMatch, hfn] at hpm
    exact absurd hpm (by simp)
  | some fn =>
    simp only [processEnhancedMatch, hfn] at hpm
    by_cases hgate : (5 ≤ fn.length && fn.length ≤ 80 && !denyTestEnhanced fn) = true
    · rw [if_pos hgate] at hpm
      injection hpm with hpm
      subst hpm
      simp only [Bool.and_eq_true, decide_eq_true_eq, Bool.not_eq_true'] at hgate
      obtain ⟨⟨h5, h80⟩, hdeny⟩ := hgate
      refine ⟨?_, ?_, ?_⟩ <;> dsimp only
      · omega
      · exact h80
      · exact hdeny
    · rw [if_neg hgate] at hpm
      exact absurd hpm (by simp)

/-- Witness for claim C8 at a concrete text: the pattern strategy on
"Acme LLC" produces a candidate, and its name passes the stated gate. -/
theorem claim_C8_validation_witness :
    (⟨"Acme LLC", 60, "Standard LLC Pattern", "Acme LLC", "Acme LLC"⟩ : Candidate) ∈
      enhancedPatternCandidates ("Acme LLC") ∧
    3 ≤ ("Acme LLC" : String).length ∧ ("Acme LLC" : String).length ≤ 80 ∧
    denyTestEnhanced ("Acme LLC") = false := by
  have hmem : (⟨"Acme LLC", 60, "Standard LLC Pattern", "Acme LLC",
      "Acme LLC"⟩ : Candidate) ∈ enhancedPatternCandidates ("Acme LLC") := by decide
  exact ⟨hmem, claim_C8_validation ("Acme LLC") _ hmem⟩

/-- Membership in the fragment-matching output characterized company by
company. -/
theorem mem_fragmentCandidates_iff (ct : String) (c : Candidate) :
    c ∈ fragmentCandidates ct ↔
      ∃ co ∈ knownCompanies,
        ceil60 co.fragments.length ≤
          (foundFragments co (textTokens ct)).length ∧
        c = fragmentCandidateOf co (foundFragments co (textTokens ct)) := by
  unfold fragmentCandidates
  simp only [List.mem_filterMap, Option.ite_none_right_eq_some,
    Option.some.injEq]
  constructor
  · rintro ⟨co, hco, hcond, hc⟩
    exact ⟨co, hco, hcond, hc.symm⟩
  · rintro ⟨co, hco, hcond, hc⟩
    exact ⟨co, hco, hcond, hc.symm⟩

/-- Claim C9: the fragment strategy emits a company's canonical name with its
fixed confidence iff at least 60% of its fragments appear among the text's
alphabetic tokens of length at least three (by lowercased substring
containment); `3 * total ≤ 5 * matched` is the exact form of "at least 60%". -/
theorem claim_C9_fragment_matching (ct : String) (co : KnownCompany)
    (hco : co ∈ knownCompanies) :
    (∃ c ∈ fragmentCandidates ct, c.name = co.name ∧
        c.confidence = co.confidence) ↔
      3 * co.fragments.length ≤
        5 * (foundFragments co (textTokens ct)).length := by
  constructor
  · rintro ⟨c, hc, hname, hconf⟩
    rw [mem_fragmentCandidates_iff] at hc
    obtain ⟨co', hco', hcond, rfl⟩ := hc
    have hco'co : co' = co := by
      fin_cases hco <;> fin_cases hco' <;>
        first
          | rfl
          | exact absurd
              (show bitConceptsCompany.name = porvinCompany.name from hname)
              (by decide)
          | exact absurd
              (show porvinCompany.name = bitConceptsCompany.name from hname)
              (by decide)
    subst hco'co
    unfold ceil60 at hcond
    omega
  · intro h
    refine ⟨fragmentCandidateOf co (foundFragments co (textTokens ct)),
      ?_, rfl, rfl⟩
    rw [mem_fragmentCandidates_iff]
    exact ⟨co, hco, by unfold ceil60; omega, rfl⟩

/-- Witness for claim C9: on "bit concepts llc" all three BitConcepts
fragments are found and the canonical candidate is emitted. -/
theorem claim_C9_fragment_matching_witness :
    bitConceptsCompany ∈ knownCompanies ∧
    (∃ c ∈ fragmentCandidates ("bit concepts llc"),
      c.name = bitConceptsCompany.name ∧
      c.confidence = bitConceptsCompany.confidence) :=
  ⟨by decide,
   (claim_C9_fragment_matching ("bit concepts llc") bitConceptsCompany
     (by decide)).mpr (by decide)⟩

/-! ## Post-OCR cleanup (`applyIntelligentCleanup`, part_000 lines 132-151) -/

/-- Fuelled worker for `replace(/([.!?])\s*([a-z])/g, '$1 $2')`: sentence
punctuation followed by optional whitespace and a lowercase letter gets
exactly one separating space. -/
def fixPunctSpacingF : Nat → List Char → List Char
  | 0, _ => []
  | _, [] => []
  | fuel + 1, c :: cs =>
    if c == '.' || c == '!' || c == '?' then
      match cs.dropWhile isSpaceChar with
      | d :: es =>
        if isLowerAlpha d then c :: ' ' :: d :: fixPunctSpacingF fuel es
        else c :: fixPunctSpacingF fuel cs
      | [] => c :: fixPunctSpacingF fuel cs
    else c :: fixPunctSpacingF fuel cs

/-- Normalize punctuation spacing. -/
def fixPunctSpacing (l : List Char) : List Char := fixPunctSpacingF l.length l

/-- `replace(/([a-z])([A-Z])/g, '$1 $2')`: split camelCase boundaries; after
a replacement the scan continues past the consumed pair, as a global regex
does. -/
def splitCamel : List Char → List Char
  | [] => []
  | [c] => [c]
  | c :: d :: rest =>
    if isLowerAlpha c && isUpperAlpha d then c :: ' ' :: d :: splitCamel rest
    else c :: splitCamel (d :: rest)

/-- The keep class of the aggressive cleanup `[^\w\s\.,;:!?\-()&'\"]`. -/
def isCleanupKeep (c : Char) : Bool :=
  isWordChar c || isSpaceChar c || isQualityPunct c || c == apos || c == dquote

/-- `applyIntelligentCleanup`: when the readable ratio is below 50, first
blank out characters outside the keep class; then collapse whitespace, fix
missing spaces after sentence punctuation, split camelCase, and trim. -/
def applyIntelligentCleanup (text : String) (q : TextQuality) : String :=
  let c1 := if q.readableRatio < 50 then
      text.data.map (fun c => if isCleanupKeep c then c else ' ')
    else text.data
  String.mk (jsTrim (splitCamel (fixPunctSpacing (collapseWs c1))))

/-! ## The OCR strategy runner
(`performExternalOCROptimized`, part_000 lines 172-381)

The network interaction is modelled by pairing each parameter profile with
the outcome its OCR.space request produced: an HTTP error, a processing
error, an empty result set, a thrown exception, or a list of per-page texts.
The runner's control flow over those outcomes is transcribed from the
source. -/

/-- Outcome of one OCR.space request. -/
inductive OCRAttempt where
  | httpError (status : Nat) (body : String) : OCRAttempt
  | processingError (msg : String) : OCRAttempt
  | noParsedResults : OCRAttempt
  | exceptionThrown (msg : String) : OCRAttempt
  | parsed (pages : List String) : OCRAttempt
deriving Repr, DecidableEq

/-- One OCR parameter profile (the `apikey` setting, an environment secret,
is omitted). -/
structure OCRStrategy where
  name : String
  settings : List (String × String)
deriving Repr, DecidableEq

/-- The four `ocrStrategies` profiles of part_000 lines 186-241, in their
fixed priority order. -/
def ocrStrategies : List OCRStrategy :=
  [ { name := "High-Resolution Engine 2 (Best for Articles)",
      settings := [("OCREngine", "2"), ("scale", "true"), ("isTable", "false"),
        ("detectOrientation", "true"), ("language", "eng"),
        ("isOverlayRequired", "false"), ("filetype", "Auto"),
        ("isCreateSearchablePdf", "false"),
        ("isSearchablePdfHideTextLayer", "false")] },
    { name := "Engine 1 High Quality (Alternative)",
      settings := [("OCREngine", "1"), ("scale", "true"), ("isTable", "false"),
        ("detectOrientation", "true"), ("language", "eng"),
        ("isOverlayRequired", "false"), ("filetype", "Auto")] },
    { name := "Table Detection Mode (For Complex Layouts)",
      settings := [("OCREngine", "2"), ("scale", "true"), ("isTable", "true"),
        ("detectOrientation", "true"), ("language", "eng"),
        ("isOverlayRequired", "false"), ("filetype", "Auto")] },
    { name := "No Auto-Scaling (Raw Processing)",
      settings := [("OCREngine", "2"), ("scale", "false"), ("isTable", "false"),
        ("detectOrientation", "false"), ("language", "eng"),
        ("isOverlayRequired", "false"), ("filetype", "Auto")] } ]

/-- Page texts concatenated with the `'\n\n'` separator appended to each
page, as the accumulation loop does. -/
def ocrAllText (pages : List String) : String :=
  String.join (pages.map (fun p => p ++ "\n\n"))

/-- The runner's quality thresholds (part_000 lines 329-343): readable ratio
at least 20, length at least 20, at least five valid words. -/
def ocrGatePass (allText : String) : Bool :=
  let q := analyzeTextQuality allText
  !(q.readableRatio < 20) && !(allText.length < 20) && !(q.validWordCount < 5)

/-- The fields of the runner's success value that are data (the per-page
diagnostics and timing are logging only and not modelled). -/
structure OCRResult where
  text : String
  rawText : String
  method : String
  quality : Nat
  validWords : Nat
deriving Repr, DecidableEq

/-- The success value returned for an accepted profile: the cleaned text and
its re-analyzed quality. -/
def ocrSuccess (strat : OCRStrategy) (pages : List String) : OCRResult :=
  let allText := ocrAllText pages
  let overall := analyzeTextQuality allText
  let cleaned := applyIntelligentCleanup allText overall
  let fq := analyzeTextQuality cleaned
  { text := cleaned, rawText := allText, method := strat.name,
    quality := fq.readableRatio, validWords := fq.validWordCount }

/-- A profile attempt fails when its request errored in any way or when its
concatenated text misses the quality thresholds. -/
def attemptFails : OCRAttempt → Bool
  | .parsed pages => !ocrGatePass (ocrAllText pages)
  | _ => true

/-- The error the runner throws after exhausting every profile. -/
def ocrFailureMessage : String :=
  "All OCR.space strategies failed to produce acceptable text quality"

/-- The OCR strategy runner: walk the profiles in order, skip every failing
attempt, return the cleaned text of the first profile whose concatenated
output clears the gate, and raise only after all profiles are exhausted. -/
def performExternalOCROptimized :
    List (OCRStrategy × OCRAttempt) → Except String OCRResult
  | [] => .error ocrFailureMessage
  | (strat, att) :: rest =>
    match att with
    | .parsed pages =>
      if ocrGatePass (ocrAllText pages) then .ok (ocrSuccess strat pages)
      else performExternalOCROptimized rest
    | _ => performExternalOCROptimized rest

/-- Claim C6: the OCR runner tries its profiles in fixed order; an individual
profile failure never terminates the run early; the first profile whose
concatenated output clears readableRatio ≥ 20, length ≥ 20 and
validWordCount ≥ 5 is returned — independently of whatever comes after it —
and an error is raised exactly when every profile failed. -/
theorem claim_C6_ocr_runner :
    (∀ (sa : OCRStrategy × OCRAttempt) (rest : List (OCRStrategy × OCRAttempt)),
      attemptFails sa.2 = true →
      performExternalOCROptimized (sa :: rest) =
        performExternalOCROptimized rest) ∧
    (∀ (pre post : List (OCRStrategy × OCRAttempt)) (strat : OCRStrategy)
        (pages : List String),
      (∀ x ∈ pre, attemptFails x.2 = true) →
      ocrGatePass (ocrAllText pages) = true →
      performExternalOCROptimized (pre ++ (strat, .parsed pages) :: post) =
        .ok (ocrSuccess strat pages)) ∧
    (∀ profileRuns : List (OCRStrategy × OCRAttempt),
      performExternalOCROptimized profileRuns = .error ocrFailureMessage ↔
        ∀ x ∈ profileRuns, attemptFails x.2 = true) := by
  have hskip : ∀ (sa : OCRStrategy × OCRAttempt)
      (rest : List (OCRStrategy × OCRAttempt)),
      attemptFails sa.2 = true →
      performExternalOCROptimized (sa :: rest) =
        performExternalOCROptimized rest := by
    rintro ⟨strat, att⟩ rest hfail
    cases att with
    | parsed pages =>
      simp only [attemptFails, Bool.not_eq_true'] at hfail
      simp [performExternalOCROptimized, hfail]
    | httpError status body => rfl
    | processingError msg => rfl
    | noParsedResults => rfl
    | exceptionThrown msg => rfl
  refine ⟨hskip, ?_, ?_⟩
  · intro pre
    induction pre with
    | nil =>
      intro post strat pages _ hgate
      simp [performExternalOCROptimized, hgate]
    | cons sa rest ih =>
      intro post strat pages hpre hgate
      rw [List.cons_append, hskip sa _ (hpre sa (List.mem_cons_self _ _))]
      exact ih post strat pages (fun x hx => hpre x (List.mem_cons_of_mem _ hx)) hgate
  · intro profileRuns
    induction profileRuns with
    | nil => simp [performExternalOCROptimized]
    | cons sa rest ih =>
      obtain ⟨strat, att⟩ := sa
      cases att with
      | parsed pages =>
        by_cases hgate : ocrGatePass (ocrAllText pages) = true
        · simp [performExternalOCROptimized, hgate, attemptFails]
        · rw [Bool.not_eq_true] at hgate
          simp [performExternalOCROptimized, hgate, attemptFails, ih]
      | httpError status body => simpa [performExternalOCROptimized, attemptFails] using ih
      | processingError msg => simpa [performExternalOCROptimized, attemptFails] using ih
      | noParsedResults => simpa [performExternalOCROptimized, attemptFails] using ih
      | exceptionThrown msg => simpa [performExternalOCROptimized, attemptFails] using ih

/-- Witness for claim C6: a processing-error profile is skipped and the next
profile's readable text is returned. -/
theorem claim_C6_ocr_runner_witness :
    attemptFails (OCRAttempt.processingError ("bad scan")) = true ∧
    ocrGatePass (ocrAllText
      [("This is a perfectly readable stretch of English text.")]) = true ∧
    performExternalOCROptimized
      [(⟨"Engine 1 High Quality (Alternative)", []⟩,
          OCRAttempt.processingError ("bad scan")),
       (⟨"Table Detection Mode (For Complex Layouts)", []⟩,
          OCRAttempt.parsed
            [("This is a perfectly readable stretch of English text.")])] =
      .ok (ocrSuccess ⟨"Table Detection Mode (For Complex Layouts)", []⟩
        [("This is a perfectly readable stretch of English text.")]) := by
  refine ⟨by decide, by decide, ?_⟩
  exact claim_C6_ocr_runner.2.1
    [(⟨"Engine 1 High Quality (Alternative)", []⟩,
        OCRAttempt.processingError ("bad scan"))]
    [] ⟨"Table Detection Mode (For Complex Layouts)", []⟩
    [("This is a perfectly readable stretch of English text.")]
    (by decide) (by decide)

/-! ## The document-to-text fallback chain
(`parsePdfWithFallbacks`, part_000 lines 554-690)

The two pdf-parse calls and the two OCR stages are I/O, modelled as
environment values (`none` means the call threw or produced no text); the
raw-buffer scrape of method 3 is pure and transcribed in full, operating on
the buffer's latin1 string. -/

/-- Environment for one run of the PDF fallback chain. -/
structure PdfEnv where
  standardParse : Option String
  enhancedParse : Option String
  buffer : String
  externalOcrAvailable : Bool
  externalOcr : Option String
  localOcrAvailable : Bool
  localOcr : Option String
deriving Repr, DecidableEq

/-- The class `[^,\n\r]` of the buffer company-hunting patterns. -/
def notCommaNewline (c : Char) : Bool :=
  !(c == ',' || c == Char.ofNat 10 || c == Char.ofNat 13)

/-- The seven `textPatterns` of method 3 (part_000 lines 592-601). -/
def bufferTextPatterns : List Rx :=
  [ seqList [litC '(', .grp (.rep 3 none (.cls (fun c => c != ')'))), litC ')'],
    seqList [litC '[', .grp (.rep 3 none (.cls (fun c => c != ']'))), litC ']'],
    seqList [litC '/', litC 'V', wsStar, litC '(',
      .grp (.rep 1 none (.cls (fun c => c != ')'))), litC ')'],
    seqList [litC '/', litC 'T', wsStar, litC '(',
      .grp (.rep 1 none (.cls (fun c => c != ')'))), litC ')'],
    seqList [strRxCI ("BitConcepts").data, .rep 0 (some 20) (.cls notCommaNewline),
      strRxCI ("LLC").data],
    seqList [strRxCI ("PORVIN").data, .rep 0 (some 50) (.cls notCommaNewline),
      strRxCI ("PLLC").data],
    seqList [.cls isUpperAlpha, .rep 5 (some 40) (.cls nameCls),
      .alt (strRx ("LLC").data) (.alt (strRx ("PLLC").data)
        (.alt (strRx ("Inc").data) (strRx ("Corp").data)))] ]

/-- `match[1] || match[0]`: the capture when present and non-empty, else the
full match. -/
def scrapeMatchText (m : RxMatch) : String :=
  match m.group1 with
  | some g => if g.isEmpty then m.fullMatch else g
  | none => m.fullMatch

/-- All cleaned scrape fragments the seven patterns find, in pattern order:
a fragment is kept when it is longer than 2 characters and contains a letter,
and its cleaned form (non-name characters to spaces, collapse, trim) is
longer than 3 characters. -/
def scrapeTexts (buffer : String) : List String :=
  bufferTextPatterns.flatMap (fun r =>
    (execLoop buffer.data.toArray r (buffer.length + 1) 0).filterMap (fun m =>
      let t := scrapeMatchText m
      if 2 < t.length && t.data.any isAlpha then
        let ct := String.mk (jsTrim (collapseWs (replaceNonNameWithSpace t.data)))
        if 3 < ct.length then some ct else none
      else none))

/-- Insertion into the `Set` of extracted texts (insertion-ordered,
duplicate-free). -/
def dedupInsert (acc : List String) (s : String) : List String :=
  if s ∈ acc then acc else acc ++ [s]

/-- `Array.from(new Set(...))`: first occurrences in insertion order. -/
def orderedUnique (l : List String) : List String := l.foldl dedupInsert []

/-- Method 3's result: the unique fragments joined with single spaces, when
there is at least one fragment and the combined text is longer than 10
characters. -/
def method3Combined (buffer : String) : Option String :=
  let uniq := orderedUnique (scrapeTexts buffer)
  if uniq.isEmpty then none
  else
    let combined := String.mk (jsTrim (collapseWs
      (String.intercalate " " uniq).data))
    if 10 < combined.length then some combined else none

/-- The diagnostic error message raised when all five methods fail
(whitespace layout linearized; the emoji-free text of part_000 lines
669-687). -/
def pdfFailureMessage (env : PdfEnv) : String :=
  let ocrStatus := if env.externalOcrAvailable then "Available but failed"
    else "Not configured"
  let localOcrStatus := if env.localOcrAvailable then "Available but failed"
    else "Not configured"
  "Unable to extract text from this PDF using any of 5 methods. " ++
  "This appears to be a scanned PDF that requires OCR processing. " ++
  "Current OCR status: - External OCR (OCR.space/Google Vision): " ++
  ocrStatus ++ " - Local OCR (Tesseract): " ++ localOcrStatus ++
  " Solutions for automatic processing: " ++
  "1. Configure OCR.space API key: OCR_SPACE_API_KEY environment variable " ++
  "2. Configure Google Cloud Vision: GOOGLE_CLOUD_VISION_API_KEY environment variable " ++
  "3. Install local OCR: npm install tesseract.js pdf2pic sharp " ++
  "4. Use higher quality document scans (300+ DPI) " ++
  "5. Convert to DOCX format before upload " ++
  "Note: External OCR services work reliably on any platform."

/-- The PDF fallback chain: standard parse (kept when longer than 50 chars),
enhanced parse (same check), buffer scraping (combined text longer than 10),
external OCR then local OCR (each kept when longer than 20 and only when
available), and the diagnostic error when everything failed. -/
def parsePdfWithFallbacks (env : PdfEnv) : Except String String :=
  match env.standardParse.filter (fun t => 50 < t.length) with
  | some t => .ok t
  | none =>
    match env.enhancedParse.filter (fun t => 50 < t.length) with
    | some t => .ok t
    | none =>
      match method3Combined env.buffer with
      | some t => .ok t
      | none =>
        match (if env.externalOcrAvailable then
            env.externalOcr.filter (fun t => 20 < t.length) else none) with
        | some t => .ok t
        | none =>
          match (if env.localOcrAvailable then
              env.localOcr.filter (fun t => 20 < t.length) else none) with
          | some t => .ok t
          | none => .error (pdfFailureMessage env)

/-- The per-strategy gated outputs, in the chain's strict order.  The gates
are the source's length thresholds (more than 50 characters for the native
parses, more than 10 for the combined scrape, more than 20 for either OCR
stage). -/
def pdfStrategyOutputs (env : PdfEnv) : List (Option String) :=
  [env.standardParse.filter (fun t => 50 < t.length),
   env.enhancedParse.filter (fun t => 50 < t.length),
   method3Combined env.buffer,
   if env.externalOcrAvailable then
     env.externalOcr.filter (fun t => 20 < t.length) else none,
   if env.localOcrAvailable then
     env.localOcr.filter (fun t => 20 < t.length) else none]

/-- Modelled from the spec: the acceptability gate of spec section 4.1 at its
suggested policy — readableRatio at least 20, length at least 20 characters,
at least 5 valid words.  Used only to compare the chain's actual acceptance
criteria against the spec's quality gate. -/
def specAcceptableText (t : String) : Bool :=
  let q := analyzeTextQuality t
  20 ≤ q.readableRatio && 20 ≤ t.length && 5 ≤ q.validWordCount

/-- A 60-character string of symbols: long enough to pass method 1's length
check while failing the spec's quality gate outright. -/
def junkText : String := String.mk (List.replicate 60 '@')

/-- Well-formed English prose that passes the spec's quality gate. -/
def goodProseText : String :=
  "This is a perfectly readable stretch of English prose for testing."

/-- Environment refuting claim C7 as stated: standard parsing yields
unreadable symbols of sufficient length, enhanced parsing yields good
prose. -/
def pdfEnvCounterexample : PdfEnv :=
  { standardParse := some junkText, enhancedParse := some goodProseText,
    buffer := "", externalOcrAvailable := false, externalOcr := none,
    localOcrAvailable := false, localOcr := none }

/-- Counterexample to claim C7 as stated: the extractor returns method 1's
output even though it fails the section 4.1 quality gate at every threshold
in the spec's range, while a later strategy's output passes it — the chain's
acceptance criteria are length thresholds, not the quality gate. -/
theorem claim_C7_counterexample :
    parsePdfWithFallbacks pdfEnvCounterexample = .ok junkText ∧
    specAcceptableText junkText = false ∧
    (analyzeTextQuality junkText).readableRatio = 0 ∧
    specAcceptableText goodProseText = true ∧
    pdfEnvCounterexample.enhancedParse = some goodProseText ∧
    junkText ≠ goodProseText := by
  refine ⟨rfl, by decide, by decide, by decide, rfl, by decide⟩

/-- Claim C7 as amended: the strategies are attempted in strict order and the
extractor returns the output of the first strategy that passes that
strategy's own length gate (more than 50 characters for the native parses,
more than 10 for the combined scrape, more than 20 for OCR), running no
further strategies; when every strategy fails it raises the diagnostic error
rather than returning text. -/
theorem claim_C7_first_accepted (env : PdfEnv) :
    parsePdfWithFallbacks env =
      match (pdfStrategyOutputs env).findSome? id with
      | some t => .ok t
      | none => .error (pdfFailureMessage env) := by
  unfold parsePdfWithFallbacks pdfStrategyOutputs
  cases h1 : env.standardParse.filter (fun t => 50 < t.length) <;>
    cases h2 : env.enhancedParse.filter (fun t => 50 < t.length) <;>
      cases h3 : method3Combined env.buffer <;>
        cases h4 : (if env.externalOcrAvailable then
            env.externalOcr.filter (fun t => 20 < t.length) else none) <;>
          cases h5 : (if env.localOcrAvailable then
              env.localOcr.filter (fun t => 20 < t.length) else none) <;>
            simp [h1, h2, h3, h4, h5, List.findSome?]

end BTC
